import Mathlib

/-!
Verification development for the DeepKS descriptor / correction / gradient
engine, a shallow embedding of `deepks/scf/scf.py` and `deepqc/scf/grad.py`.

Modelling conventions:
* numeric tensors are total functions over `Fin` index types with values in ℚ
  (exact arithmetic standing in for double precision);
* the per-shell lists of tensors of the source (`ovlp_shells`, `pdm_shells`,
  `eig_shells`, `ipov_shells`) are families indexed by the position in the
  shell-size list `sec` (the source's `_shell_sec`), so every shell carries
  its size in its type;
* external collaborators (the pyscf integral provider, the torch symmetric
  eigensolver, the neural model) enter as explicit parameters;
* reverse-mode automatic differentiation (torch.autograd) is embedded by the
  chain-rule formulas of the actual computation graph, with the backward of
  `torch.symeig` (eigenvalues only) given by its documented formula
  `U · diag(ḡ) · Uᵀ`, the eigenvector matrix `U` being supplied by the
  abstract eigensolver.
-/

namespace DeepKS

/-- A density-matrix-shaped square tensor `[nao × nao]`. -/
abbrev Mat (nao : ℕ) : Type := Fin nao → Fin nao → ℚ

/-- The per-shell projection-overlap tensors: for each shell `k` of the
shell-size list `sec`, a tensor of shape `[nao × natm × sec.get k]`
(`ovlp_shells` in the source, the result of splitting `proj_ovlp` by
`_shell_sec` along the last axis). -/
abbrev OvShells (nao natm : ℕ) (sec : List ℕ) : Type :=
  (k : Fin sec.length) → Fin nao → Fin natm → Fin (sec.get k) → ℚ

/-- The per-shell coordinate-derivative overlap tensors (`ipov_shells`,
`< ∇ mol_ao | alpha^I_rlm >` split by shell), shape `[3 × nao × natm × ns]`
each. -/
abbrev IpovShells (nao natm : ℕ) (sec : List ℕ) : Type :=
  (k : Fin sec.length) → Fin 3 → Fin nao → Fin natm → Fin (sec.get k) → ℚ

/-- The per-shell projected density matrices, shape `[natm × ns × ns]` each. -/
abbrev PdmShells (natm : ℕ) (sec : List ℕ) : Type :=
  (k : Fin sec.length) → Fin natm → Fin (sec.get k) → Fin (sec.get k) → ℚ

/-- The per-shell descriptor eigenvalues, shape `[natm × ns]` each. -/
abbrev EigShells (natm : ℕ) (sec : List ℕ) : Type :=
  (k : Fin sec.length) → Fin natm → Fin (sec.get k) → ℚ

/-- `t_make_pdm` on a single (unbatched) density matrix: the einsum
`'rap,...rs,saq->...apq'` of the source with no batch dimensions, applied to
every shell of the overlap list. -/
def t_make_pdm (nao natm : ℕ) (sec : List ℕ) (dm : Mat nao)
    (ov : OvShells nao natm sec) : PdmShells natm sec :=
  fun k a p q => ∑ r, ∑ s, ov k r a p * dm r s * ov k s a q

/-- `t_make_pdm` on a batched density matrix: the same einsum
`'rap,...rs,saq->...apq'`, where the ellipsis matches the leading batch
dimensions of `dm`.  An arbitrary batch index type `B` stands for any number
of leading batch dimensions (their product). -/
def t_make_pdm_batched (B : Type) (nao natm : ℕ) (sec : List ℕ)
    (dm : B → Mat nao) (ov : OvShells nao natm sec) :
    (k : Fin sec.length) → B → Fin natm → Fin (sec.get k) → Fin (sec.get k) → ℚ :=
  fun k b a p q => ∑ r, ∑ s, ov k r a p * dm b r s * ov k s a q

/-- The external batched symmetric eigensolver (`torch.symeig(..)[0]`): for a
square matrix of any size it returns the vector of eigenvalues.  It is an
external collaborator of the code, so it enters the embedding as a parameter. -/
abbrev EigSolver : Type := (n : ℕ) → (Fin n → Fin n → ℚ) → Fin n → ℚ

/-- The eigenvector output of the external eigensolver (`torch.symeig` with
`eigenvectors=True`): `(uvec n M) p v` is component `p` of the `v`-th
eigenvector of `M`.  Needed only to express the backward pass of the
eigensolver. -/
abbrev EigVecs : Type := (n : ℕ) → (Fin n → Fin n → ℚ) → Fin n → Fin n → ℚ

/-- The per-shell descriptor eigenvalues (`eig_shells` in `t_make_eig`):
`torch.symeig` applied, batched over atoms, to each shell of the projected
density matrix of `dm`. -/
def t_eig_shells (nao natm : ℕ) (sec : List ℕ) (eig : EigSolver) (dm : Mat nao)
    (ov : OvShells nao natm sec) : EigShells natm sec :=
  fun k a => eig (sec.get k) (t_make_pdm nao natm sec dm ov k a)

/-- `t_make_eig`: the per-shell eigenvalues concatenated along the last axis
(`torch.cat(eig_shells, dim=-1)`).  The result is rendered as a list of rows,
one per atom, each row the concatenation of that atom's per-shell eigenvalue
lists.  `torch.cat` raises a `RuntimeError` on an empty tensor list, which
happens exactly when the shell list is empty; that failure is rendered as
`none`. -/
def t_make_eig (nao natm : ℕ) (sec : List ℕ) (eig : EigSolver) (dm : Mat nao)
    (ov : OvShells nao natm sec) : Option (List (List ℚ)) :=
  if sec = [] then none
  else some ((List.finRange natm).map (fun a =>
    ((List.finRange sec.length).map (fun k =>
      List.ofFn (t_eig_shells nao natm sec eig dm ov k a))).flatten))

/-- `dm.sum(0)` on a stacked (spin-channel) density matrix. -/
def spin_sum (nspin nao : ℕ) (dm : Fin nspin → Mat nao) : Mat nao :=
  fun r s => ∑ i, dm i r s

/-- A density-matrix argument as received by `NetMixin.get_corr` /
`NetMixin.make_eig`: either a single (spin-restricted) matrix of `ndim == 2`,
or a stacked pair of spin channels of `ndim == 3` as produced by an
unrestricted solver. -/
inductive DMArr (nao : ℕ) : Type
  | restricted (dm : Mat nao)
  | stacked (dm : Fin 2 → Mat nao)

/-- `np.zeros_like(dm)`: the all-zero array of the same shape as `dm`. -/
def DMArr.zeros_like {nao : ℕ} : DMArr nao → DMArr nao
  | .restricted _ => .restricted (fun _ _ => 0)
  | .stacked _ => .stacked (fun _ _ _ => 0)

/-- The spin preprocessing of `NetMixin.get_corr` / `NetMixin.make_eig`:
`if dm.ndim >= 3 and isinstance(self, scf.uhf.UHF): dm = dm.sum(0)` (a stacked
input only arises from an unrestricted solver). -/
def DMArr.collapse {nao : ℕ} : DMArr nao → Mat nao
  | .restricted dm => dm
  | .stacked dm => spin_sum 2 nao dm

/-- `NetMixin.make_eig`: spin preprocessing followed by `t_make_eig` on the
cached overlap shells. -/
def make_eig (nao natm : ℕ) (sec : List ℕ) (eig : EigSolver) (dmin : DMArr nao)
    (ov : OvShells nao natm sec) : Option (List (List ℚ)) :=
  t_make_eig nao natm sec eig dmin.collapse ov

/-- Modelled from the spec: the differentiable model (`CorrNet`,
`deepks/model/model.py`, not present under `src/`) is "a pure function from a
descriptor tensor to an energy tensor, differentiable end-to-end"; on a
batched descriptor it acts independently per sample.  It enters the embedding
as its value function `f` together with its descriptor gradient `grad`
(reverse-mode differentiation through the model is external).  The model
consumes the concatenated descriptor; concatenation being a bijective
reindexing of the shell-indexed family, the embedding keeps the family form. -/
structure AModel (natm : ℕ) (sec : List ℕ) : Type where
  f : EigShells natm sec → ℚ
  grad : EigShells natm sec → EigShells natm sec

/-- The backward pass of `torch.symeig` restricted to the eigenvalue output:
with eigenvector matrix `U` and eigenvalue cotangent `gl`, the matrix
cotangent is `U · diag(gl) · Uᵀ`. -/
def symeig_bwd (ns : ℕ) (U : Fin ns → Fin ns → ℚ) (gl : Fin ns → ℚ) :
    Fin ns → Fin ns → ℚ :=
  fun p q => ∑ v, gl v * U p v * U q v

/-- The per-shell derivative of the model energy with respect to the projected
density matrix that is implicit in the potential computation of `t_get_corr`:
the reverse-mode pass from `ec = model(t_make_eig(dm, ..))` back to the
projected density, i.e. the model's descriptor gradient pulled back through
the eigensolver by `symeig_bwd`. -/
def t_get_corr_gedm (nao natm : ℕ) (sec : List ℕ) (eig : EigSolver)
    (uvec : EigVecs) (m : AModel natm sec) (dm : Mat nao)
    (ov : OvShells nao natm sec) : PdmShells natm sec :=
  fun k a =>
    symeig_bwd (sec.get k) (uvec (sec.get k) (t_make_pdm nao natm sec dm ov k a))
      (m.grad (t_eig_shells nao natm sec eig dm ov) k a)

/-- The correction potential of `t_get_corr`:
`[vc] = torch.autograd.grad(ec, dm, torch.ones_like(ec))`, the reverse-mode
pass continued from the projected densities back through the projection
einsum `'rap,...rs,saq->...apq'` to the density matrix. -/
def t_get_corr_vc (nao natm : ℕ) (sec : List ℕ) (eig : EigSolver)
    (uvec : EigVecs) (m : AModel natm sec) (dm : Mat nao)
    (ov : OvShells nao natm sec) : Mat nao :=
  fun r s => ∑ k, ∑ a, ∑ p, ∑ q,
    ov k r a p * t_get_corr_gedm nao natm sec eig uvec m dm ov k a p q * ov k s a q

/-- `t_get_corr` with `with_vc=True`: the model energy on the descriptor of
`dm` together with the correction potential. -/
def t_get_corr (nao natm : ℕ) (sec : List ℕ) (eig : EigSolver) (uvec : EigVecs)
    (m : AModel natm sec) (dm : Mat nao) (ov : OvShells nao natm sec) :
    ℚ × Mat nao :=
  (m.f (t_eig_shells nao natm sec eig dm ov),
   t_get_corr_vc nao natm sec eig uvec m dm ov)

/-- `NetMixin.get_corr`: if the model is `None`, return zero energy and
`np.zeros_like(dm)`; otherwise sum the spin channels of a stacked density
matrix and run `t_get_corr` on the result. -/
def get_corr (nao natm : ℕ) (sec : List ℕ) (eig : EigSolver) (uvec : EigVecs)
    (net : Option (AModel natm sec)) (ov : OvShells nao natm sec)
    (dmin : DMArr nao) : ℚ × DMArr nao :=
  match net with
  | none => (0, dmin.zeros_like)
  | some m =>
    ((t_get_corr nao natm sec eig uvec m dmin.collapse ov).1,
     .restricted (t_get_corr nao natm sec eig uvec m dmin.collapse ov).2)

/-- `t_make_grad_e_pdm`: the per-shell derivative of the model energy with
respect to the projected density matrices as recomputed inside the gradient
engine.  The concatenated descriptor receives `unsqueeze(0)` (a leading batch
dimension of size one); the model — acting per sample, see `AModel` — is
evaluated on it, and `torch.autograd.grad(ec, pdm_shells)` with the implicit
unit cotangent on the one-element output sums the per-sample pullbacks of the
model's descriptor gradient through the eigensolver backward. -/
def t_make_grad_e_pdm (nao natm : ℕ) (sec : List ℕ) (eig : EigSolver)
    (uvec : EigVecs) (m : AModel natm sec) (dm : Mat nao)
    (ov : OvShells nao natm sec) : PdmShells natm sec :=
  fun k a p q =>
    ∑ b : Fin 1,
      symeig_bwd (sec.get k)
        (uvec (sec.get k) (t_make_pdm nao natm sec dm ov k a))
        (m.grad ((fun _ : Fin 1 => t_eig_shells nao natm sec eig dm ov) b) k a)
        p q

/-- The atom-ownership ranges of molecular-orbital indices:
`aoslice ia = (bg, ed)` models `mol.aoslice_by_atom()[ia, 2:]`, the half-open
range of orbital indices centered on atom `ia`. -/
abbrev AOSlice (natm : ℕ) : Type := Fin natm → ℕ × ℕ

/-- The coordinate-derivative overlap contraction of one shell:
`torch.einsum('xrap,rs,saq->xapq', govx, dm, ovlp)` over the full orbital
range (`gproj` in `t_make_grad_pdm_x`, `ginner` in `t_grad_corr` before the
factor 2). -/
def ip_contract (nao natm ns : ℕ)
    (govx : Fin 3 → Fin nao → Fin natm → Fin ns → ℚ) (dm : Mat nao)
    (ovlp : Fin nao → Fin natm → Fin ns → ℚ) :
    Fin 3 → Fin natm → Fin ns → Fin ns → ℚ :=
  fun x a p q => ∑ r, ∑ s, govx x r a p * dm r s * ovlp s a q

/-- The same contraction with the orbital index `r` restricted to the
half-open slice `[bg, ed)` (`govx[:,bg:ed]` and `dm[bg:ed]` in the source). -/
def ip_contract_slice (nao natm ns : ℕ) (bg ed : ℕ)
    (govx : Fin 3 → Fin nao → Fin natm → Fin ns → ℚ) (dm : Mat nao)
    (ovlp : Fin nao → Fin natm → Fin ns → ℚ) :
    Fin 3 → Fin natm → Fin ns → Fin ns → ℚ :=
  fun x a p q =>
    ∑ r ∈ Finset.univ.filter (fun r : Fin nao => bg ≤ r.val ∧ r.val < ed),
      ∑ s, govx x r a p * dm r s * ovlp s a q

/-- One iteration of the `for ia in range(natm)` loop of `t_make_grad_pdm_x`
on one shell: `gdmx[ia] -= einsum('xrap,rs,saq->xapq', govx[:,bg:ed],
dm[bg:ed], ovlp)` followed by `gdmx[ia,:,ia] += gproj[:,ia]`. -/
def gdmx_step (nao natm ns : ℕ) (aoslice : AOSlice natm)
    (govx : Fin 3 → Fin nao → Fin natm → Fin ns → ℚ) (dm : Mat nao)
    (ovlp : Fin nao → Fin natm → Fin ns → ℚ)
    (g : Fin natm → Fin 3 → Fin natm → Fin ns → Fin ns → ℚ) (ia : Fin natm) :
    Fin natm → Fin 3 → Fin natm → Fin ns → Fin ns → ℚ :=
  fun ja x a p q =>
    if ja = ia then
      g ja x a p q
        - ip_contract_slice nao natm ns (aoslice ia).1 (aoslice ia).2
            govx dm ovlp x a p q
        + (if a = ia then ip_contract nao natm ns govx dm ovlp x ia p q else 0)
    else g ja x a p q

/-- One shell of `t_make_grad_pdm_x`: the zero-initialized accumulation loop
over all moving atoms, followed by the final symmetrization
`gdmx += gdmx.clone().transpose(-1,-2)`. -/
def t_make_grad_pdm_x_shell (nao natm ns : ℕ) (aoslice : AOSlice natm)
    (govx : Fin 3 → Fin nao → Fin natm → Fin ns → ℚ) (dm : Mat nao)
    (ovlp : Fin nao → Fin natm → Fin ns → ℚ) :
    Fin natm → Fin 3 → Fin natm → Fin ns → Fin ns → ℚ :=
  fun ia x a p q =>
    ((List.finRange natm).foldl (gdmx_step nao natm ns aoslice govx dm ovlp)
        (fun _ _ _ _ _ => 0)) ia x a p q
      + ((List.finRange natm).foldl (gdmx_step nao natm ns aoslice govx dm ovlp)
          (fun _ _ _ _ _ => 0)) ia x a q p

/-- `t_make_grad_pdm_x`: the jacobian of the projected density matrices with
respect to atomic coordinates, one `[natm × 3 × natm × ns × ns]` tensor per
shell. -/
def t_make_grad_pdm_x (nao natm : ℕ) (sec : List ℕ) (aoslice : AOSlice natm)
    (dm : Mat nao) (ov : OvShells nao natm sec) (ipov : IpovShells nao natm sec) :
    (k : Fin sec.length) → Fin natm → Fin 3 → Fin natm →
      Fin (sec.get k) → Fin (sec.get k) → ℚ :=
  fun k => t_make_grad_pdm_x_shell nao natm (sec.get k) aoslice (ipov k) dm (ov k)

/-- `t_grad_corr`: the Pulay force contribution of the correction energy.  Per
shell, `ginner = einsum('xrap,rs,saq->xapq', govx, dm, ovlp) * 2` and
`gouter = -einsum('xrap,apq,saq->xrs', govx, gedm, ovlp) * 2`; for the `kk`-th
requested atom `ia` the force accumulates
`einsum('xpq,pq->x', ginner[:,ia], gedm[ia])` plus
`einsum('xrs,rs->x', gouter[:,bg:ed], dm[bg:ed])`. -/
def t_grad_corr (nao natm : ℕ) (sec : List ℕ) (eig : EigSolver)
    (uvec : EigVecs) (aoslice : AOSlice natm) (m : AModel natm sec)
    (dm : Mat nao) (ov : OvShells nao natm sec) (ipov : IpovShells nao natm sec)
    (atmlst : List (Fin natm)) : Fin atmlst.length → Fin 3 → ℚ :=
  fun kk x =>
    ∑ k : Fin sec.length,
      ((∑ p, ∑ q,
          (2 * ip_contract nao natm (sec.get k) (ipov k) dm (ov k) x
              (atmlst.get kk) p q)
            * t_make_grad_e_pdm nao natm sec eig uvec m dm ov k
                (atmlst.get kk) p q)
        + (∑ r ∈ Finset.univ.filter (fun r : Fin nao =>
              (aoslice (atmlst.get kk)).1 ≤ r.val
                ∧ r.val < (aoslice (atmlst.get kk)).2),
            ∑ s,
              (-2 * ∑ a, ∑ p, ∑ q,
                  ipov k x r a p
                    * t_make_grad_e_pdm nao natm sec eig uvec m dm ov k a p q
                    * ov k s a q)
                * dm r s))

/-- `Gradients.grad_corr`: with no model, return `np.zeros([len(atmlst), 3])`;
otherwise run `t_grad_corr` on the cached integrals. -/
def grad_corr (nao natm : ℕ) (sec : List ℕ) (eig : EigSolver) (uvec : EigVecs)
    (aoslice : AOSlice natm) (net : Option (AModel natm sec)) (dm : Mat nao)
    (ov : OvShells nao natm sec) (ipov : IpovShells nao natm sec)
    (atmlst : List (Fin natm)) : Fin atmlst.length → Fin 3 → ℚ :=
  match net with
  | none => fun _ _ => 0
  | some m => t_grad_corr nao natm sec eig uvec aoslice m dm ov ipov atmlst

/-- The effective potential returned by `CorrMixin.get_veff`: the raw array
together with the auxiliary fields attached by
`lib.tag_array(vtot, ec=ec, v0=v0)`; `tag = none` models a plain untagged
array. -/
structure VEff (nao : ℕ) : Type where
  v : Mat nao
  tag : Option (ℚ × Mat nao)

/-- The externally-owned base mean-field solver, reduced to the hooks the
mixin calls: its incremental effective-potential builder
`get_veff0(mol, dm, dm_last, vhf_last, hermi)` (the fixed `mol`/`hermi`
arguments are dropped), its electronic-energy routine `energy_elec0`, the
correction query `get_corr` of the concrete mixin, and the defaults
`make_rdm1()` / `get_hcore()`. -/
structure BaseSolver (nao : ℕ) : Type where
  veff0 : Mat nao → Mat nao → Mat nao → Mat nao
  energy_elec0 : Mat nao → Mat nao → Mat nao → ℚ × ℚ
  corr : Mat nao → ℚ × Mat nao
  rdm1 : Mat nao
  hcore : Mat nao

/-- `getattr(vhf_last, 'v0', 0)`: the tagged base-only potential of the
previous iteration, or `0` when the argument is the default `0` or an
untagged array. -/
def getattr_v0 (nao : ℕ) (vhf_last : Option (VEff nao)) : Mat nao :=
  match vhf_last with
  | none => 0
  | some t =>
    match t.tag with
    | some tg => tg.2
    | none => 0

/-- `CorrMixin.get_veff`: build the base potential from the previous
iteration's tagged base-only component, add the correction potential, and tag
the sum with the correction energy and the base-only potential. -/
def get_veff (nao : ℕ) (S : BaseSolver nao) (dmArg : Option (Mat nao))
    (dm_last : Mat nao) (vhf_last : Option (VEff nao)) : VEff nao :=
  let dm := dmArg.getD S.rdm1
  let v0_last := getattr_v0 nao vhf_last
  let v0 := S.veff0 dm dm_last v0_last
  { v := v0 + (S.corr dm).2, tag := some ((S.corr dm).1, v0) }

/-- `CorrMixin.energy_elec`: if the supplied potential is absent or carries no
tagged correction energy, recompute `get_veff` (with default `dm_last = 0`,
`vhf_last = 0`); then evaluate the base electronic energy on the tagged
base-only potential and add the tagged correction energy to both returned
components.  The final `match` arm for an untagged potential is unreachable
(`get_veff` always tags its result). -/
def energy_elec (nao : ℕ) (S : BaseSolver nao) (dmArg h1eArg : Option (Mat nao))
    (vhfArg : Option (VEff nao)) : ℚ × ℚ :=
  let dm := dmArg.getD S.rdm1
  let h1e := h1eArg.getD S.hcore
  let vhf :=
    match vhfArg with
    | none => get_veff nao S (some dm) 0 none
    | some t => if t.tag.isSome then t else get_veff nao S (some dm) 0 none
  match vhf.tag with
  | some tg => ((S.energy_elec0 dm h1e tg.2).1 + tg.1,
                (S.energy_elec0 dm h1e tg.2).2 + tg.1)
  | none => (0, 0)

/-- The geometry-dependent state owned by the mean-field hook layer
(`NetMixin`): the molecular geometry and the cached projection overlaps
`_t_ovlp_shells`.  Geometry and overlap values are abstract (`G`, `O`); the
integral provider is the function computing the overlaps from the geometry. -/
structure MFState (G O : Type) : Type where
  mol : G
  ovlp : O

/-- `NetMixin.prepare_integrals`: recompute the cached projection overlaps
from the current geometry via the external integral provider. -/
def prepare_integrals (G O : Type) (proj : G → O) (s : MFState G O) :
    MFState G O :=
  { s with ovlp := proj s.mol }

/-- `NetMixin.reset`: `super().reset(mol)` (the external base class records
the new geometry) followed by `self.prepare_integrals()`. -/
def reset (G O : Type) (proj : G → O) (s : MFState G O) (mol : G) :
    MFState G O :=
  prepare_integrals G O proj { s with mol := mol }

/-- The state owned by the gradient engine (`Gradients`): its own geometry
reference, the owning mean-field state, and the cached `_t_ovlp_shells` /
`_t_ipov_shells`. -/
structure GradState (G O P : Type) : Type where
  mol : G
  base : MFState G O
  ovlp : O
  ipov : P

/-- `Gradients.prepare_integrals`: copy the mean-field layer's cached overlap
shells and recompute the derivative overlaps from the base solver's current
geometry (`mf.proj_intor("int1e_ipovlp")` evaluates on `mf.mol` and the
projection molecule built from it). -/
def grad_prepare_integrals (G O P : Type) (ipproj : G → P)
    (g : GradState G O P) : GradState G O P :=
  { g with ovlp := g.base.ovlp, ipov := ipproj g.base.mol }

/-- The state effect of `NewScanner.__call__` at a new geometry: the base
mean-field scanner runs at the new geometry (the external pyscf SCF scanner
issues `reset`, hence `NetMixin.reset` refreshes the base overlaps), the
scanner records the new geometry, and — the line added by this code —
`self.prepare_integrals()` refreshes the gradient engine's cached integrals
before `self.kernel(..)` consumes them. -/
def scanner_call (G O P : Type) (proj : G → O) (ipproj : G → P)
    (g : GradState G O P) (mol : G) : GradState G O P :=
  grad_prepare_integrals G O P ipproj
    { g with base := reset G O proj g.base mol, mol := mol }

/-! ## Theorems -/

/-- C2: for every density matrix and overlap shells, `t_make_pdm` returns per
shell the contraction `(D^I)_{pq} = Σ_{rs} O_{r,I,p}·DM_{rs}·O_{s,I,q}`, and on
a batched density matrix the same contraction is applied independently to each
batch element, the batch index being preserved in the output. -/
theorem C2_project_contraction (B : Type) (nao natm : ℕ) (sec : List ℕ)
    (dm : B → Mat nao) (ov : OvShells nao natm sec) (b : B)
    (k : Fin sec.length) (a : Fin natm) (p q : Fin (sec.get k)) :
    t_make_pdm nao natm sec (dm b) ov k a p q
        = ∑ r, ∑ s, ov k r a p * dm b r s * ov k s a q
      ∧ t_make_pdm_batched B nao natm sec dm ov k b a p q
        = t_make_pdm nao natm sec (dm b) ov k a p q :=
  ⟨rfl, rfl⟩

/-- C9 (counterexample): at the concrete input with one atom, one orbital and
an empty shell list, the descriptor computation does not return an empty
descriptor: `torch.cat` on the empty list of per-shell eigenvalue tensors
raises (modelled as `none`), contradicting the claim that an empty projection
basis yields an empty descriptor without error. -/
theorem C9_empty_basis_counterexample :
    t_make_eig 1 1 [] (fun _ M v => M v v) (fun _ _ => 1) (fun k => k.elim0)
      = none := rfl

/-- C9 (amended): for an input with zero atoms (and a nonempty shell list) the
descriptor computation returns the empty descriptor tensor and does not raise;
with an empty shell list, however, it raises (`torch.cat` of an empty tensor
list), as witnessed by the counterexample. -/
theorem C9_zero_atoms_empty_descriptor (nao : ℕ) (sec : List ℕ)
    (eig : EigSolver) (dm : Mat nao) (ov : OvShells nao 0 sec)
    (h : sec ≠ []) :
    t_make_eig nao 0 sec eig dm ov = some [] := by
  simp [t_make_eig, h]

/-- C9 (witness): the amended theorem applied at a concrete input: one
orbital, zero atoms, a single shell of size 1. -/
theorem C9_zero_atoms_witness :
    ([1] : List ℕ) ≠ []
      ∧ t_make_eig 1 0 [1] (fun _ M v => M v v) (fun _ _ => 1)
          (fun _ _ _ _ => 1) = some [] :=
  ⟨by decide,
   C9_zero_atoms_empty_descriptor 1 [1] (fun _ M v => M v v) (fun _ _ => 1)
     (fun _ _ _ _ => 1) (by decide)⟩

/-- `symeig_bwd` is symmetric in its two matrix indices for every eigenvector
matrix and every cotangent. -/
theorem symeig_bwd_symm (ns : ℕ) (U : Fin ns → Fin ns → ℚ) (gl : Fin ns → ℚ)
    (p q : Fin ns) : symeig_bwd ns U gl p q = symeig_bwd ns U gl q p :=
  Finset.sum_congr rfl (fun v _ => by ring)

/-- C3: the correction potential (the reverse-mode derivative of the model
energy with respect to the density matrix, computed in `t_get_corr` with a
unit cotangent) is symmetric whenever the input density matrix is symmetric —
for every eigensolver, eigenvector provider and model. -/
theorem C3_potential_symmetric (nao natm : ℕ) (sec : List ℕ) (eig : EigSolver)
    (uvec : EigVecs) (m : AModel natm sec) (dm : Mat nao)
    (ov : OvShells nao natm sec) (_hdm : ∀ r s, dm r s = dm s r)
    (r s : Fin nao) :
    t_get_corr_vc nao natm sec eig uvec m dm ov r s
      = t_get_corr_vc nao natm sec eig uvec m dm ov s r := by
  unfold t_get_corr_vc
  refine Finset.sum_congr rfl (fun k _ => Finset.sum_congr rfl (fun a _ => ?_))
  rw [Finset.sum_comm]
  refine Finset.sum_congr rfl (fun p _ => Finset.sum_congr rfl (fun q _ => ?_))
  rw [t_get_corr_gedm, symeig_bwd_symm]
  ring

/-- C3 (witness): the symmetry theorem applied at a concrete input with two
orbitals, one atom and a single shell of size 1, a nontrivial symmetric
density matrix, a concrete eigensolver/eigenvector pair and the identity
descriptor gradient. -/
theorem C3_potential_symmetric_witness :
    ((fun r s => if r = s then (2 : ℚ) else 3) : Mat 2) 0 1
        = ((fun r s => if r = s then (2 : ℚ) else 3) : Mat 2) 1 0
      ∧ t_get_corr_vc 2 1 [1] (fun _ M v => M v v) (fun _ M p v => M p v + 1)
          ⟨fun _ => 0, fun e => e⟩
          (fun r s => if r = s then (2 : ℚ) else 3)
          (fun _ r _ _ => if r = 0 then (1 : ℚ) else 2) 0 1
        = t_get_corr_vc 2 1 [1] (fun _ M v => M v v) (fun _ M p v => M p v + 1)
          ⟨fun _ => 0, fun e => e⟩
          (fun r s => if r = s then (2 : ℚ) else 3)
          (fun _ r _ _ => if r = 0 then (1 : ℚ) else 2) 1 0 :=
  ⟨by decide,
   C3_potential_symmetric 2 1 [1] (fun _ M v => M v v) (fun _ M p v => M p v + 1)
     ⟨fun _ => 0, fun e => e⟩
     (fun r s => if r = s then (2 : ℚ) else 3)
     (fun _ r _ _ => if r = 0 then (1 : ℚ) else 2)
     (by decide) 0 1⟩

/-- C4: the per-shell energy-to-projected-density gradient recomputed inside
the analytic gradient engine (`t_make_grad_e_pdm`, which evaluates the model
on a descriptor with an added leading batch dimension of size one) equals the
derivative of the correction energy with respect to the projected density
implicit in `t_get_corr` (which evaluates the model without a batch
dimension): the two evaluation paths yield the same quantity, for every
density matrix, overlap shells and model. -/
theorem C4_grad_e_pdm_matches_corr (nao natm : ℕ) (sec : List ℕ)
    (eig : EigSolver) (uvec : EigVecs) (m : AModel natm sec) (dm : Mat nao)
    (ov : OvShells nao natm sec) (k : Fin sec.length) (a : Fin natm)
    (p q : Fin (sec.get k)) :
    t_make_grad_e_pdm nao natm sec eig uvec m dm ov k a p q
      = t_get_corr_gedm nao natm sec eig uvec m dm ov k a p q := by
  simp [t_make_grad_e_pdm, t_get_corr_gedm]

/-- C6: for a spin-unrestricted (stacked) density matrix the correction energy
and the descriptor are computed from the spin-summed density matrix; in
particular, for two identical half-occupied channels the descriptor equals the
descriptor of the spin-restricted density matrix at double occupation — for
every eigensolver and model. -/
theorem C6_spin_summed_descriptor (nao natm : ℕ) (sec : List ℕ)
    (eig : EigSolver) (uvec : EigVecs) (m : AModel natm sec)
    (ov : OvShells nao natm sec) (du : Fin 2 → Mat nao) (dmh : Mat nao) :
    (get_corr nao natm sec eig uvec (some m) ov (.stacked du)).1
        = (t_get_corr nao natm sec eig uvec m (spin_sum 2 nao du) ov).1
      ∧ make_eig nao natm sec eig (.stacked du) ov
        = t_make_eig nao natm sec eig (spin_sum 2 nao du) ov
      ∧ make_eig nao natm sec eig (.stacked (fun _ => dmh)) ov
        = make_eig nao natm sec eig (.restricted (fun r s => 2 * dmh r s)) ov := by
  refine ⟨rfl, rfl, ?_⟩
  have h : spin_sum 2 nao (fun _ => dmh) = fun r s => 2 * dmh r s := by
    funext r s
    rw [spin_sum, Fin.sum_univ_two]
    ring
  simp only [make_eig, DMArr.collapse, h]

/-- A moving-atom row never touched by the accumulation loop of
`t_make_grad_pdm_x` keeps its initial value. -/
theorem gdmx_foldl_not_mem (nao natm ns : ℕ) (aoslice : AOSlice natm)
    (govx : Fin 3 → Fin nao → Fin natm → Fin ns → ℚ) (dm : Mat nao)
    (ovlp : Fin nao → Fin natm → Fin ns → ℚ) (l : List (Fin natm))
    (ja : Fin natm) :
    ∀ g, ja ∉ l →
      (l.foldl (gdmx_step nao natm ns aoslice govx dm ovlp) g) ja = g ja := by
  induction l with
  | nil => intro g _; rfl
  | cons ia t ih =>
    intro g hja
    rw [List.foldl_cons, ih _ (fun h => hja (List.mem_cons_of_mem _ h))]
    have hne : ja ≠ ia := fun h => hja (h ▸ List.mem_cons_self ia t)
    funext x a p q
    simp [gdmx_step, hne]

/-- The accumulation loop of `t_make_grad_pdm_x` writes each moving-atom row
exactly once: on a duplicate-free list containing `ja`, row `ja` of the result
is its initial value minus the sliced orbital-derivative contraction plus the
projection-derivative contraction on the diagonal block. -/
theorem gdmx_foldl_mem (nao natm ns : ℕ) (aoslice : AOSlice natm)
    (govx : Fin 3 → Fin nao → Fin natm → Fin ns → ℚ) (dm : Mat nao)
    (ovlp : Fin nao → Fin natm → Fin ns → ℚ) (l : List (Fin natm))
    (ja : Fin natm) (x : Fin 3) (a : Fin natm) (p q : Fin ns) :
    ∀ g, l.Nodup → ja ∈ l →
      (l.foldl (gdmx_step nao natm ns aoslice govx dm ovlp) g) ja x a p q
        = g ja x a p q
          - ip_contract_slice nao natm ns (aoslice ja).1 (aoslice ja).2
              govx dm ovlp x a p q
          + (if a = ja then ip_contract nao natm ns govx dm ovlp x ja p q
             else 0) := by
  induction l with
  | nil => intro g _ hja; cases hja
  | cons ia t ih =>
    intro g hnd hja
    rw [List.foldl_cons]
    rcases List.mem_cons.mp hja with h | h
    · subst h
      rw [gdmx_foldl_not_mem nao natm ns aoslice govx dm ovlp t ja _
          (List.nodup_cons.mp hnd).1]
      simp [gdmx_step]
    · have hne : ja ≠ ia := by
        rintro rfl; exact (List.nodup_cons.mp hnd).1 h
      rw [ih _ (List.nodup_cons.mp hnd).2 h]
      simp [gdmx_step, hne]

/-- C5: for every shell and every moving-atom index `ia`, the projected-density
coordinate jacobian produced by `t_make_grad_pdm_x` is the sum of exactly
three contributions — the orbital-center derivative restricted to the orbital
slice owned by `ia`, with a minus sign; the local-projection-function
derivative, added only into the block whose projection-atom index equals `ia`;
and the symmetrization adding the transpose over the two local-basis indices —
and the returned shell tensor is symmetric in its last two indices. -/
theorem C5_grad_pdm_x_contributions (nao natm : ℕ) (sec : List ℕ)
    (aoslice : AOSlice natm) (dm : Mat nao) (ov : OvShells nao natm sec)
    (ipov : IpovShells nao natm sec) (k : Fin sec.length) (ia : Fin natm)
    (x : Fin 3) (a : Fin natm) (p q : Fin (sec.get k)) :
    t_make_grad_pdm_x nao natm sec aoslice dm ov ipov k ia x a p q
        = (-(ip_contract_slice nao natm (sec.get k) (aoslice ia).1
                (aoslice ia).2 (ipov k) dm (ov k) x a p q)
            + (if a = ia then
                ip_contract nao natm (sec.get k) (ipov k) dm (ov k) x ia p q
               else 0))
          + (-(ip_contract_slice nao natm (sec.get k) (aoslice ia).1
                (aoslice ia).2 (ipov k) dm (ov k) x a q p)
            + (if a = ia then
                ip_contract nao natm (sec.get k) (ipov k) dm (ov k) x ia q p
               else 0))
      ∧ t_make_grad_pdm_x nao natm sec aoslice dm ov ipov k ia x a p q
        = t_make_grad_pdm_x nao natm sec aoslice dm ov ipov k ia x a q p := by
  have hpq := gdmx_foldl_mem nao natm (sec.get k) aoslice (ipov k) dm (ov k)
    (List.finRange natm) ia x a p q (fun _ _ _ _ _ => 0)
    (List.nodup_finRange natm) (List.mem_finRange ia)
  have hqp := gdmx_foldl_mem nao natm (sec.get k) aoslice (ipov k) dm (ov k)
    (List.finRange natm) ia x a q p (fun _ _ _ _ _ => 0)
    (List.nodup_finRange natm) (List.mem_finRange ia)
  constructor
  · simp only [t_make_grad_pdm_x, t_make_grad_pdm_x_shell]
    rw [hpq, hqp]
    ring
  · simp only [t_make_grad_pdm_x, t_make_grad_pdm_x_shell]
    rw [hpq, hqp]
    ring

/-- C7: when no model is supplied, the correction query returns exactly zero
energy and an all-zero potential of the same shape as the (restricted or
stacked) density matrix, the nuclear-force-correction query returns the
all-zero `[len(atmlst) × 3]` tensor, and no error is raised (both functions
are total in this state). -/
theorem C7_none_model_zero (nao natm : ℕ) (sec : List ℕ) (eig : EigSolver)
    (uvec : EigVecs) (aoslice : AOSlice natm) (ov : OvShells nao natm sec)
    (ipov : IpovShells nao natm sec) (dmr : Mat nao) (du : Fin 2 → Mat nao)
    (atmlst : List (Fin natm)) :
    get_corr nao natm sec eig uvec none ov (.restricted dmr)
        = (0, .restricted (fun _ _ => 0))
      ∧ get_corr nao natm sec eig uvec none ov (.stacked du)
        = (0, .stacked (fun _ _ _ => 0))
      ∧ grad_corr nao natm sec eig uvec aoslice none dmr ov ipov atmlst
        = fun _ _ => 0 :=
  ⟨rfl, rfl, rfl⟩

/-- C1: the effective-potential hook returns the base solver's potential plus
the correction potential, tagged with the correction energy `ec` and the
base-only potential `v0`; the electronic-energy hook recomputes `get_veff`
exactly when the supplied potential carries no tagged correction energy
(absent or untagged), and otherwise returns the base electronic energy
evaluated with the tagged base-only potential `v0` — not the combined one —
plus the tagged correction energy, so the correction is counted exactly
once. -/
theorem C1_hook_overrides (nao : ℕ) (S : BaseSolver nao)
    (dm dm_last h1e : Mat nao) (vhf_last : Option (VEff nao)) (v : Mat nao)
    (ec : ℚ) (v0 : Mat nao) :
    get_veff nao S (some dm) dm_last vhf_last
        = { v := S.veff0 dm dm_last (getattr_v0 nao vhf_last) + (S.corr dm).2,
            tag := some ((S.corr dm).1,
                         S.veff0 dm dm_last (getattr_v0 nao vhf_last)) }
      ∧ energy_elec nao S (some dm) (some h1e) none
        = energy_elec nao S (some dm) (some h1e)
            (some (get_veff nao S (some dm) 0 none))
      ∧ energy_elec nao S (some dm) (some h1e) (some ⟨v, none⟩)
        = energy_elec nao S (some dm) (some h1e)
            (some (get_veff nao S (some dm) 0 none))
      ∧ energy_elec nao S (some dm) (some h1e) (some ⟨v, some (ec, v0)⟩)
        = ((S.energy_elec0 dm h1e v0).1 + ec,
           (S.energy_elec0 dm h1e v0).2 + ec) :=
  ⟨rfl, rfl, rfl, rfl⟩

/-- C10: in every call of the effective-potential hook, the previous-iteration
potential forwarded to the base solver's builder is the tagged base-only
component `v0` of the supplied previous potential (or `0` when no tag is
present), never the combined corrected potential: the result is independent of
the combined array `v` of `vhf_last`, and the base builder receives exactly
the tagged `v0` (or `0`). -/
theorem C10_base_builder_gets_v0 (nao : ℕ) (S : BaseSolver nao)
    (dm dm_last : Mat nao) (w w' : Mat nao) (tg : Option (ℚ × Mat nao))
    (ec : ℚ) (v0 : Mat nao) :
    get_veff nao S (some dm) dm_last (some ⟨w, tg⟩)
        = get_veff nao S (some dm) dm_last (some ⟨w', tg⟩)
      ∧ (get_veff nao S (some dm) dm_last (some ⟨w, some (ec, v0)⟩)).v
        = S.veff0 dm dm_last v0 + (S.corr dm).2
      ∧ (get_veff nao S (some dm) dm_last (some ⟨w, none⟩)).v
        = S.veff0 dm dm_last 0 + (S.corr dm).2
      ∧ (get_veff nao S (some dm) dm_last none).v
        = S.veff0 dm dm_last 0 + (S.corr dm).2 :=
  ⟨rfl, rfl, rfl, rfl⟩

/-- C8: after a geometry reset issued through the solver's reset protocol —
including a gradient-scanner call at a new geometry — every cached projection
overlap equals the one computed from the new geometry before any subsequent
correction or gradient query reads it (queries read only these cached fields),
so no query uses the old geometry's overlaps. -/
theorem C8_reset_refreshes_overlaps (G O P : Type) (proj : G → O)
    (ipproj : G → P) (s : MFState G O) (g : GradState G O P) (mol : G) :
    (reset G O proj s mol).mol = mol
      ∧ (reset G O proj s mol).ovlp = proj mol
      ∧ (scanner_call G O P proj ipproj g mol).mol = mol
      ∧ (scanner_call G O P proj ipproj g mol).base.mol = mol
      ∧ (scanner_call G O P proj ipproj g mol).base.ovlp = proj mol
      ∧ (scanner_call G O P proj ipproj g mol).ovlp = proj mol
      ∧ (scanner_call G O P proj ipproj g mol).ipov = ipproj mol :=
  ⟨rfl, rfl, rfl, rfl, rfl, rfl, rfl⟩

end DeepKS
